import Mathlib

/-!
Shallow embedding of tinygrad/shape/view.py, the single-view shape/stride
algebra: the `View` record, its factory `View.create`, the run-merging
utility `to_shape_strides`, the address-expression builders `expr_node` /
`expr_idxs` (interpreted at concrete indices), and the movement operations
pad, shrink, expand, permute, stride, reshape.

Modelling conventions:
- the claims all concern concrete (non-symbolic) views, so `sint` is
  specialized to `Int`; Python tuples become `List`s;
- Python floor division `//` and modulo `%` are `Int.fdiv` / `Int.fmod`;
- `functools.lru_cache` is a pure memoization layer and is dropped;
- a failed `assert` is modelled as `none` (the operations returning
  `Option View`); `reshape` in the source returns `Optional[View]` where
  `None` is the normal "not representable" outcome, so it is modelled as
  `Except String (Option View)` with `Except.error` for assertion failure
  and `Except.ok none` for "not representable";
- the symbolic node library is external: `Variable.sum` of a term list is
  interpreted as integer summation, `Variable.num k` as `k`, and the
  arithmetic operators pointwise, which is exactly their value on concrete
  inputs.
-/

namespace TG

/-- tinygrad.helpers.prod: the product of a list of integers. -/
def prodInt (l : List Int) : Int := l.foldr (fun a b => a * b) 1

/-- Loop state of `to_shape_strides`: `cur` is the last element of the
Python `ret` list (the run still being extended); the remaining
`(shape, stride)` pairs are consumed left to right.  Merging
(`ret[-1] = (ret[-1][0]*shape[i], strides[i])`), skipping extent-1
dimensions, and appending follow the source's branch order. -/
def tssGo (cur : Int × Int) : List (Int × Int) → List (Int × Int)
  | [] => [cur]
  | (sh, st) :: rest =>
    if cur.2 = sh * st ∨ cur.1 = 1 then tssGo (cur.1 * sh, st) rest
    else if sh = 1 then tssGo cur rest
    else cur :: tssGo (sh, st) rest

/-- to_shape_strides: merge adjacent mergeable dimensions into runs.  The
source asserts `len(shape) == len(strides)`; `List.zip` truncates, which
agrees with the source on all inputs passing that assert. -/
def to_shape_strides (shape strides : List Int) : List (Int × Int) :=
  match shape.zip strides with
  | [] => []
  | p :: rest => tssGo p rest

/-- filter_strides: stride forced to 0 wherever the shape entry is 1. -/
def filter_strides (shape strides : List Int) : List Int :=
  (strides.zip shape).map fun p => if p.2 ≠ 1 then p.1 else 0

/-- strides_for_shape: row-major strides.  The source initializes
`strides = [1]` for a nonempty shape and prepends `d * strides[0]` for `d`
over `shape[::-1][:-1]` (the tail of the shape, right to left); that loop
is the `foldr` below.  The result is passed through `filter_strides`. -/
def strides_for_shape (shape : List Int) : List Int :=
  filter_strides shape
    (match shape with
     | [] => []
     | _ :: rest => rest.foldr (fun d strides => d * strides.headD 1 :: strides) [1])

/-- View: shape, strides, offset, optional per-dimension mask, and the
derived contiguity flag (a stored field, as in the source NamedTuple). -/
structure View where
  shape : List Int
  strides : List Int
  offset : Int
  mask : Option (List (Int × Int))
  contiguous : Bool
deriving DecidableEq

/-- Normalized strides of the factory (source line
`strides = filter_strides(shape, strides) if strides else strides_for_shape(shape)`):
a falsy `strides` argument (absent, or the empty tuple) defaults to
`strides_for_shape shape`, otherwise `filter_strides` is applied. -/
def createStrides (shape : List Int) (strides : Option (List Int)) : List Int :=
  match strides with
  | some s => if s = [] then strides_for_shape shape else filter_strides shape s
  | none => strides_for_shape shape

/-- View.create: the factory.  `contiguous` is derived exactly as in the
source, including the truncating `zip` against the canonical strides. -/
def View.create (shape : List Int) (strides : Option (List Int)) (offset : Int)
    (mask : Option (List (Int × Int))) : View :=
  let strides2 := createStrides shape strides
  let contiguous :=
    decide (offset = 0) && mask.isNone &&
      ((strides2.zip (strides_for_shape shape)).all fun p => p.1 == p.2)
  ⟨shape, strides2, offset, mask, contiguous⟩

/-- Product of the extents of a run list (the accumulator `acc` of
`expr_node` when the remaining runs have been processed). -/
def prodExt (runs : List (Int × Int)) : Int := prodInt (runs.map Prod.fst)

/-- Value of the run terms of `expr_node` at a concrete flat index.  The
source iterates `reversed(runs)` with an accumulator `acc` that is
multiplied by each processed extent, so the run at position `k` receives
`acc` equal to the product of the extents of the runs after `k`; that is
`prodExt rest` below. -/
def runsVal (runs : List (Int × Int)) (idx : Int) : Int :=
  match runs with
  | [] => 0
  | (d, s) :: rest => ((idx.fdiv (prodExt rest)).fmod d) * s + runsVal rest idx

/-- View.expr_node, interpreted at a concrete flat index: the offset term
is emitted only when `self.offset` is truthy (nonzero), then one term
`((idx // acc) % d) * s` per merged run. -/
def exprNodeVal (v : View) (idx : Int) : Int :=
  (if v.offset ≠ 0 then v.offset else 0) + runsVal (to_shape_strides v.shape v.strides) idx

/-- View.expr_idxs, interpreted at concrete per-dimension indices: offset
plus `idx * stride` over the dimensions with `shape != 1 and stride != 0`. -/
def exprIdxsVal (v : View) (idxs : List Int) : Int :=
  v.offset +
    (((idxs.zip (v.shape.zip v.strides)).filter fun p =>
        decide (p.2.1 ≠ 1) && decide (p.2.2 ≠ 0)).map fun p => p.1 * p.2.2).sum

/-- Row-major flattening of a per-dimension index tuple: each index is
weighted by the product of the extents after its dimension. -/
def flattenIdx : List Int → List Int → Int
  | _, [] => 0
  | [], _ => 0
  | _ :: ss, i :: js => i * prodInt ss + flattenIdx ss js

/-- validIdxs shape idxs: one index per dimension, each within
`[0, extent)`. -/
def validIdxs : List Int → List Int → Bool
  | [], [] => true
  | s :: ss, i :: js => decide (0 ≤ i) && decide (i < s) && validIdxs ss js
  | _, _ => false

/-- Pointwise product sum of two lists (the fully expanded per-dimension
address term `sum(index[i] * strides[i])`). -/
def dotProd (xs ys : List Int) : Int := ((xs.zip ys).map fun p => p.1 * p.2).sum

/-- View.__unsafe_resize: shared helper of shrink and pad.  The old mask
(when truthy) is translated by the new box origin and intersected with the
`mask` argument when one is given. -/
def View.resizeRaw (v : View) (arg : List (Int × Int)) (mask : Option (List (Int × Int))) : View :=
  let offsetD := ((v.strides.zip arg).map fun p => p.1 * p.2.1).sum
  let mask2 : Option (List (Int × Int)) :=
    match v.mask with
    | some omask =>
      if omask.isEmpty then mask
      else
        let nmask := (omask.zip arg).map fun p =>
          (max (p.1.1 - p.2.1) 0, min (p.1.2 - p.2.1) (p.2.2 - p.2.1))
        match mask with
        | some m => some ((nmask.zip m).map fun p => (max p.1.1 p.2.1, min p.1.2 p.2.2))
        | none => some nmask
    | none => mask
  View.create (arg.map fun p => p.2 - p.1) (some v.strides) (v.offset + offsetD) mask2

/-- View.pad: asserts nonnegative pad amounts of matching rank; a no-op
pad returns the view itself, otherwise resizes to the enlarged box with
the `[before, before + extent)` mask. -/
def View.pad (v : View) (arg : List (Int × Int)) : Option View :=
  if (arg.all fun p => decide (0 ≤ p.1) && decide (0 ≤ p.2)) && arg.length == v.shape.length then
    if arg.any fun p => !(p.1 == 0) || !(p.2 == 0) then
      let zvarg := (v.shape.zip arg).map fun p => (-p.2.1, p.1 + p.2.2)
      let mask := (v.shape.zip arg).map fun p => (p.2.1, p.1 + p.2.1)
      some (v.resizeRaw zvarg (some mask))
    else some v
  else none

/-- View.shrink: asserts `0 <= begin` and `end <= extent` per dimension
with matching rank, then resizes to the sub-box. -/
def View.shrink (v : View) (arg : List (Int × Int)) : Option View :=
  if ((v.shape.zip arg).all fun p => decide (0 ≤ p.2.1) && decide (p.2.2 ≤ p.1)) &&
      arg.length == v.shape.length then
    some (v.resizeRaw arg none)
  else none

/-- View.expand: broadcast extent-1 stride-0 dimensions; a truthy mask is
widened per the source formula. -/
def View.expand (v : View) (new_shape : List Int) : Option View :=
  if (new_shape.length == v.shape.length) &&
      (((v.shape.zip new_shape).zip v.strides).all fun p =>
        p.1.1 == p.1.2 || (p.1.1 == 1 && p.2 == 0)) then
    let mask : Option (List (Int × Int)) :=
      match v.mask with
      | some m =>
        if m.isEmpty then none
        else some (((m.zip v.shape).zip new_shape).map fun p =>
          if p.1.2 ≠ p.2 then
            (if p.1.1 ≠ ((0 : Int), (1 : Int)) then ((0 : Int), (0 : Int)) else (0, p.2))
          else p.1.1)
      | none => none
    some (View.create new_shape (some v.strides) v.offset mask)
  else none

/-- View.permute: asserts a permutation of the axes, then reorders shape,
strides and mask; the `getD` defaults are unreachable under the asserts. -/
def View.permute (v : View) (axis : List Nat) : Option View :=
  if (axis.all fun x => decide (x < v.shape.length)) && decide axis.Nodup &&
      axis.length == v.shape.length then
    some (View.create (axis.map fun a => v.shape.getD a 0)
      (some (axis.map fun a => v.strides.getD a 0)) v.offset
      (match v.mask with
       | some m => some (axis.map fun a => m.getD a (0, 0))
       | none => none))
  else none

/-- View.stride: asserts nonzero multipliers (the source has no rank
assert here and relies on truncating zips). -/
def View.stride (v : View) (mul : List Int) : Option View :=
  if mul.all fun m => !(m == 0) then
    let nstrides := (v.strides.zip mul).map fun p => p.1 * p.2
    let new_shape := (v.shape.zip mul).map fun p => (p.1 + (abs p.2 - 1)).fdiv (abs p.2)
    let offsetD := ((((v.shape.zip v.strides).zip mul).filter fun p => decide (p.2 < 0)).map
        fun p => (p.1.1 - 1) * p.1.2).sum
    let mask : Option (List (Int × Int)) :=
      match v.mask with
      | some m =>
        some (((m.zip v.shape).zip mul).map fun p =>
          (((if 0 < p.2 then p.1.1.1 else p.1.2 - p.1.1.2) + (abs p.2 - 1)).fdiv (abs p.2),
           ((if 0 < p.2 then p.1.1.2 else p.1.2 - p.1.1.1) + (abs p.2 - 1)).fdiv (abs p.2)))
      | none => none
    some (View.create new_shape (some nstrides) (v.offset + offsetD) mask)
  else none

/-- Strides of the unit-insertion/removal reshape path: consume the
non-unit strides in order via `pop(0)`, stride 0 for inserted unit
dimensions.  The `headD` default is unreachable: the caller only reaches
this under the guard that the non-unit dimensions of old and new shape
coincide, so the available list is nonempty whenever it is consumed. -/
def popBuild : List Int → List Int → List Int
  | [], _ => []
  | x :: xs, avail =>
    if x = 1 then 0 :: popBuild xs avail
    else avail.headD 0 :: popBuild xs (avail.drop 1)

/-- Mask counterpart of `popBuild`: `(0, 1)` for inserted unit dimensions,
otherwise `pop(0)` from the surviving mask entries. -/
def popBuildMask : List Int → List (Int × Int) → List (Int × Int)
  | [], _ => []
  | x :: xs, avail =>
    if x = 1 then (0, 1) :: popBuildMask xs avail
    else avail.headD (0, 0) :: popBuildMask xs (avail.drop 1)

/-- View.reshape.  Branch order as in the source: identity shape first,
then the positivity assert, then the size assert (unconditional here since
every embedded dimension is concrete), then the contiguous fast path, then
the unit-insertion/removal path, else `ok none` (not representable). -/
def View.reshape (v : View) (new_shape : List Int) : Except String (Option View) :=
  if v.shape = new_shape then Except.ok (some v)
  else if !(new_shape.all fun x => decide (0 < x)) then Except.error "nonpositive dimension"
  else if !(prodInt v.shape == prodInt new_shape) then Except.error "size mismatch"
  else if v.contiguous then Except.ok (some (View.create new_shape none 0 none))
  else if v.shape.filter (fun x => !(x == 1)) = new_shape.filter (fun x => !(x == 1)) then
    let new_strides_tuple :=
      popBuild new_shape (((v.shape.zip v.strides).filter fun p => !(p.1 == 1)).map Prod.snd)
    let new_mask_tuple : Option (List (Int × Int)) :=
      match v.mask with
      | some m =>
        if m.isEmpty then none
        else if (v.shape.zip m).any fun p => p.1 == 1 && !(p.2 == ((0 : Int), (1 : Int))) then
          some (List.replicate new_shape.length (0, 0))
        else
          some (popBuildMask new_shape
            (((v.shape.zip m).filter fun p => !(p.1 == 1)).map Prod.snd))
      | none => none
    Except.ok (some (View.create new_shape (some new_strides_tuple) v.offset new_mask_tuple))
  else Except.ok none

/-! Basic lemmas about the factory and the normalization utilities. -/

@[simp] lemma create_shape (shape strides offset mask) :
    (View.create shape strides offset mask).shape = shape := rfl

@[simp] lemma create_strides (shape strides offset mask) :
    (View.create shape strides offset mask).strides = createStrides shape strides := rfl

@[simp] lemma create_offset (shape strides offset mask) :
    (View.create shape strides offset mask).offset = offset := rfl

@[simp] lemma create_mask (shape strides offset mask) :
    (View.create shape strides offset mask).mask = mask := rfl

lemma create_contiguous (shape strides offset mask) :
    (View.create shape strides offset mask).contiguous =
      (decide (offset = 0) && mask.isNone &&
        (((createStrides shape strides).zip (strides_for_shape shape)).all
          fun p => p.1 == p.2)) := rfl

lemma filter_strides_length (shape strides : List Int) :
    (filter_strides shape strides).length = min strides.length shape.length := by
  simp [filter_strides]

lemma strides_for_shape_length (shape : List Int) :
    (strides_for_shape shape).length = shape.length := by
  have aux : ∀ l : List Int,
      (l.foldr (fun d strides => d * strides.headD 1 :: strides) [1]).length =
        l.length + 1 := by
    intro l
    induction l with
    | nil => rfl
    | cons d l ih => simpa using ih
  cases shape with
  | nil => rfl
  | cons _ rest =>
    simp only [strides_for_shape, filter_strides_length, aux rest, List.length_cons]
    omega

lemma createStrides_length (shape : List Int) (strides : Option (List Int))
    (hlen : ∀ s, strides = some s → s.length = shape.length) :
    (createStrides shape strides).length = shape.length := by
  cases strides with
  | none => exact strides_for_shape_length shape
  | some s =>
    by_cases hs : s = []
    · simp [createStrides, hs, strides_for_shape_length]
    · simp [createStrides, hs, filter_strides_length, hlen s rfl]

lemma zip_all_eq : ∀ a b : List Int, a.length = b.length →
    (((a.zip b).all fun p => p.1 == p.2) = true ↔ a = b) := by
  intro a
  induction a with
  | nil =>
    intro b hb
    cases b with
    | nil => simp
    | cons y ys => simp at hb
  | cons x xs ih =>
    intro b hb
    cases b with
    | nil => simp at hb
    | cons y ys =>
      simp only [List.length_cons, Nat.add_right_cancel_iff] at hb
      rw [List.zip_cons_cons, List.all_cons, Bool.and_eq_true, beq_iff_eq, ih ys hb,
        List.cons.injEq]

/-- Characterization of the stored `contiguous` flag as the conjunction of
the three conditions, for factory arguments whose stride list (when given)
has the same length as the shape. -/
lemma contiguous_char (shape : List Int) (strides : Option (List Int)) (offset : Int)
    (mask : Option (List (Int × Int)))
    (hlen : ∀ s, strides = some s → s.length = shape.length) :
    (View.create shape strides offset mask).contiguous = true ↔
      (offset = 0 ∧ mask = none ∧
        (View.create shape strides offset mask).strides = strides_for_shape shape) := by
  rw [create_contiguous, create_strides]
  have hl : (createStrides shape strides).length = (strides_for_shape shape).length := by
    rw [createStrides_length shape strides hlen, strides_for_shape_length]
  rw [Bool.and_eq_true, Bool.and_eq_true, decide_eq_true_iff, Option.isNone_iff_eq_none,
    zip_all_eq _ _ hl, and_assoc]

lemma create_default_contiguous (shape : List Int) :
    (View.create shape none 0 none).contiguous = true := by
  rw [contiguous_char shape none 0 none (fun s h => nomatch h)]
  exact ⟨rfl, rfl, rfl⟩

/-! The canonicalization invariant: extent-1 dimensions carry stride 0. -/

/-- sinv v: within the rank, every dimension of extent 1 has stride 0. -/
def sinv (v : View) : Prop :=
  ∀ i, i < v.shape.length → v.shape.getD i 1 = 1 → v.strides.getD i 0 = 0

lemma filter_strides_getD : ∀ (shape s : List Int) (i : Nat),
    shape.getD i 1 = 1 → (filter_strides shape s).getD i 0 = 0 := by
  intro shape
  induction shape with
  | nil => intro s i _; simp [filter_strides]
  | cons sh shs ih =>
    intro s i h
    cases s with
    | nil => simp [filter_strides]
    | cons a as =>
      cases i with
      | zero => simp_all [filter_strides]
      | succ j =>
        simp only [List.getD_cons_succ] at h
        simpa [filter_strides] using ih as j h

lemma strides_for_shape_getD (shape : List Int) (i : Nat) (h : shape.getD i 1 = 1) :
    (strides_for_shape shape).getD i 0 = 0 := by
  cases shape with
  | nil => simp [strides_for_shape, filter_strides]
  | cons s rest => exact filter_strides_getD _ _ i h

lemma createStrides_getD (shape : List Int) (strides : Option (List Int)) (i : Nat)
    (h : shape.getD i 1 = 1) : (createStrides shape strides).getD i 0 = 0 := by
  cases strides with
  | none => exact strides_for_shape_getD shape i h
  | some s =>
    by_cases hs : s = []
    · simp only [createStrides, hs, if_pos rfl]
      exact strides_for_shape_getD shape i h
    · simp only [createStrides, if_neg hs]
      exact filter_strides_getD shape s i h

lemma create_sinv (shape strides offset mask) :
    sinv (View.create shape strides offset mask) := by
  intro i _ h
  simp only [create_shape] at h
  simpa using createStrides_getD shape strides i h

lemma resizeRaw_sinv (v : View) (arg : List (Int × Int)) (mask : Option (List (Int × Int))) :
    sinv (v.resizeRaw arg mask) := by
  unfold View.resizeRaw
  exact create_sinv _ _ _ _

/-- C2: for a View returned by the factory (the stride argument, when
given, having the same length as the shape), the stored `contiguous` flag
is true if and only if the offset is 0, the mask is absent, and the
normalized strides equal the canonical row-major strides for the shape —
so flipping any one of the three conditions makes it false. -/
theorem create_contiguous_iff (shape : List Int) (strides : Option (List Int)) (offset : Int)
    (mask : Option (List (Int × Int)))
    (hlen : ∀ s, strides = some s → s.length = shape.length) :
    (View.create shape strides offset mask).contiguous = true ↔
      (offset = 0 ∧ mask = none ∧
        (View.create shape strides offset mask).strides = strides_for_shape shape) :=
  contiguous_char shape strides offset mask hlen

/-- Witness for C2 at the spec's concrete scenario `(2, 3)` with default
strides, offset 0 and no mask. -/
theorem create_contiguous_iff_witness :
    (View.create [2, 3] none 0 none).contiguous = true ↔
      ((0 : Int) = 0 ∧ (none : Option (List (Int × Int))) = none ∧
        (View.create [2, 3] none 0 none).strides = strides_for_shape [2, 3]) :=
  create_contiguous_iff [2, 3] none 0 none (fun _ h => nomatch h)

/-- C3: every View produced through the factory satisfies the
canonicalization invariant (stride 0 on every extent-1 dimension);
construction is deterministic; and each movement operation preserves the
invariant — pad and reshape can return the input view itself, the others
always rebuild through the factory. -/
theorem create_canonical :
    (∀ shape strides offset mask, sinv (View.create shape strides offset mask)) ∧
    (∀ shape strides offset mask,
      View.create shape strides offset mask = View.create shape strides offset mask) ∧
    (∀ v arg w, sinv v → View.pad v arg = some w → sinv w) ∧
    (∀ v arg w, View.shrink v arg = some w → sinv w) ∧
    (∀ v ns w, View.expand v ns = some w → sinv w) ∧
    (∀ v ax w, View.permute v ax = some w → sinv w) ∧
    (∀ v ml w, View.stride v ml = some w → sinv w) ∧
    (∀ v ns w, sinv v → View.reshape v ns = Except.ok (some w) → sinv w) := by
  refine ⟨fun shape strides offset mask => create_sinv shape strides offset mask,
    fun _ _ _ _ => rfl, ?_, ?_, ?_, ?_, ?_, ?_⟩
  · intro v arg w hv h
    unfold View.pad at h
    split at h
    · split at h
      · rw [Option.some.injEq] at h
        subst h
        exact resizeRaw_sinv _ _ _
      · rw [Option.some.injEq] at h
        subst h
        exact hv
    · simp at h
  · intro v arg w h
    unfold View.shrink at h
    split at h
    · rw [Option.some.injEq] at h
      subst h
      exact resizeRaw_sinv _ _ _
    · simp at h
  · intro v ns w h
    unfold View.expand at h
    split at h
    · rw [Option.some.injEq] at h
      subst h
      exact create_sinv _ _ _ _
    · simp at h
  · intro v ax w h
    unfold View.permute at h
    split at h
    · rw [Option.some.injEq] at h
      subst h
      exact create_sinv _ _ _ _
    · simp at h
  · intro v ml w h
    unfold View.stride at h
    split at h
    · rw [Option.some.injEq] at h
      subst h
      exact create_sinv _ _ _ _
    · simp at h
  · intro v ns w hv h
    unfold View.reshape at h
    split at h
    · rw [Except.ok.injEq, Option.some.injEq] at h
      subst h
      exact hv
    · split at h
      · simp at h
      · split at h
        · simp at h
        · split at h
          · rw [Except.ok.injEq, Option.some.injEq] at h
            subst h
            exact create_sinv _ _ _ _
          · split at h
            · rw [Except.ok.injEq, Option.some.injEq] at h
              subst h
              exact create_sinv _ _ _ _
            · simp at h

/-- Witness for C3: the pad-preservation component applied at the spec's
concrete pad scenario. -/
theorem create_canonical_witness :
    sinv (View.create [6] (some [1]) (-1) (some [(1, 5)])) :=
  create_canonical.2.2.1 (View.create [4] none 0 none) [(1, 1)]
    (View.create [6] (some [1]) (-1) (some [(1, 5)])) (by unfold sinv; decide) (by decide)

/-- C4: reshaping a contiguous View to any positive shape of equal total
size succeeds and returns a contiguous view with default strides, no mask
and offset 0 (the identity-shape fast path returns the input view, which
has those properties by contiguity). -/
theorem reshape_of_contiguous (shape : List Int) (strides : Option (List Int)) (offset : Int)
    (mask : Option (List (Int × Int))) (ns : List Int)
    (hlen : ∀ s, strides = some s → s.length = shape.length)
    (hcont : (View.create shape strides offset mask).contiguous = true)
    (hpos : (ns.all fun x => decide (0 < x)) = true)
    (hprod : prodInt shape = prodInt ns) :
    ∃ w, (View.create shape strides offset mask).reshape ns = Except.ok (some w) ∧
      w.contiguous = true ∧ w.strides = strides_for_shape ns ∧
      w.offset = 0 ∧ w.mask = none := by
  obtain ⟨hoff, hmask, hstr⟩ := (contiguous_char shape strides offset mask hlen).mp hcont
  by_cases hsh : shape = ns
  · refine ⟨View.create shape strides offset mask, ?_, hcont, ?_, hoff, hmask⟩
    · have hsh2 : (View.create shape strides offset mask).shape = ns := hsh
      unfold View.reshape
      rw [if_pos hsh2]
    · rw [create_strides] at hstr
      rw [create_strides, hstr, hsh]
  · have h1 : ¬ ((View.create shape strides offset mask).shape = ns) := by
      simpa using hsh
    have h2 : ¬ ((!(ns.all fun x => decide (0 < x))) = true) := by
      simp [hpos]
    have h3 : ¬ ((!(prodInt (View.create shape strides offset mask).shape ==
        prodInt ns)) = true) := by
      simp [hprod]
    refine ⟨View.create ns none 0 none, ?_, create_default_contiguous ns, rfl, rfl, rfl⟩
    unfold View.reshape
    rw [if_neg h1, if_neg h2, if_neg h3, if_pos hcont]

/-- Witness for C4 at the contiguous view of shape `(2, 3)` reshaped to
`(6,)`. -/
theorem reshape_of_contiguous_witness :
    ∃ w, (View.create [2, 3] none 0 none).reshape [6] = Except.ok (some w) ∧
      w.contiguous = true ∧ w.strides = strides_for_shape [6] ∧
      w.offset = 0 ∧ w.mask = none :=
  reshape_of_contiguous [2, 3] none 0 none [6] (fun _ h => nomatch h)
    (by decide) (by decide) (by decide)

/-- C5: under valid arguments (positive entries, equal products), reshape
reports the not-representable outcome `ok none` — never an error — exactly
when the view is not contiguous and the in-order non-unit dimensions of
the two shapes differ; when they agree (the unit-insertion/removal case)
it returns a View. -/
theorem reshape_none_iff (v : View) (ns : List Int)
    (hpos : (ns.all fun x => decide (0 < x)) = true)
    (hprod : prodInt v.shape = prodInt ns) :
    (v.reshape ns = Except.ok none ↔
      (v.contiguous = false ∧
        v.shape.filter (fun x => !(x == 1)) ≠ ns.filter (fun x => !(x == 1)))) ∧
    (v.shape.filter (fun x => !(x == 1)) = ns.filter (fun x => !(x == 1)) →
      ∃ w, v.reshape ns = Except.ok (some w)) := by
  have h2 : ¬ ((!(ns.all fun x => decide (0 < x))) = true) := by
    simp [hpos]
  have h3 : ¬ ((!(prodInt v.shape == prodInt ns)) = true) := by
    simp [hprod]
  by_cases hsh : v.shape = ns
  · constructor
    · unfold View.reshape
      rw [if_pos hsh]
      constructor
      · intro h
        exact absurd h (by simp)
      · rintro ⟨_, hf⟩
        exact absurd (by rw [hsh]) hf
    · intro _
      exact ⟨v, by unfold View.reshape; rw [if_pos hsh]⟩
  · by_cases hc : v.contiguous = true
    · constructor
      · unfold View.reshape
        rw [if_neg hsh, if_neg h2, if_neg h3, if_pos hc]
        constructor
        · intro h
          exact absurd h (by simp)
        · rintro ⟨hcf, _⟩
          rw [hc] at hcf
          cases hcf
      · intro _
        exact ⟨View.create ns none 0 none,
          by unfold View.reshape; rw [if_neg hsh, if_neg h2, if_neg h3, if_pos hc]⟩
    · by_cases hf : v.shape.filter (fun x => !(x == 1)) = ns.filter (fun x => !(x == 1))
      · constructor
        · unfold View.reshape
          rw [if_neg hsh, if_neg h2, if_neg h3, if_neg hc, if_pos hf]
          constructor
          · intro h
            exact absurd h (by simp)
          · rintro ⟨_, hff⟩
            exact absurd hf hff
        · intro _
          unfold View.reshape
          rw [if_neg hsh, if_neg h2, if_neg h3, if_neg hc, if_pos hf]
          exact ⟨_, rfl⟩
      · constructor
        · unfold View.reshape
          rw [if_neg hsh, if_neg h2, if_neg h3, if_neg hc, if_neg hf]
          exact ⟨fun _ => ⟨Bool.eq_false_iff.mpr hc, hf⟩, fun _ => rfl⟩
        · intro h
          exact absurd h hf

/-- Witness for C5 at a non-contiguous view whose non-unit dimensions
differ from the target shape (the not-representable case). -/
theorem reshape_none_iff_witness :
    ((View.create [2, 3] (some [1, 0]) 5 none).reshape [3, 2] = Except.ok none ↔
      ((View.create [2, 3] (some [1, 0]) 5 none).contiguous = false ∧
        (View.create [2, 3] (some [1, 0]) 5 none).shape.filter (fun x => !(x == 1)) ≠
          ([3, 2] : List Int).filter (fun x => !(x == 1)))) ∧
    ((View.create [2, 3] (some [1, 0]) 5 none).shape.filter (fun x => !(x == 1)) =
        ([3, 2] : List Int).filter (fun x => !(x == 1)) →
      ∃ w, (View.create [2, 3] (some [1, 0]) 5 none).reshape [3, 2] =
        Except.ok (some w)) :=
  reshape_none_iff (View.create [2, 3] (some [1, 0]) 5 none) [3, 2] (by decide) (by decide)

/-! Address-expression consistency: the per-dimension formula, the
run-merged formula of `expr_node`, and `expr_idxs` agree at every valid
index point. -/

lemma prodInt_cons (a : Int) (l : List Int) : prodInt (a :: l) = a * prodInt l := rfl

lemma validIdxs_pos : ∀ {sh js : List Int}, validIdxs sh js = true → ∀ s ∈ sh, 0 < s := by
  intro sh
  induction sh with
  | nil =>
    intro js _ s hs
    simp at hs
  | cons a as ih =>
    intro js hv s hs
    cases js with
    | nil => simp [validIdxs] at hv
    | cons i js' =>
      simp only [validIdxs, Bool.and_eq_true, decide_eq_true_eq] at hv
      obtain ⟨⟨h0, h1⟩, hrest⟩ := hv
      rcases List.mem_cons.mp hs with h | h
      · subst h
        omega
      · exact ih hrest s h

lemma prodInt_pos : ∀ {sh : List Int}, (∀ s ∈ sh, 0 < s) → 0 < prodInt sh := by
  intro sh
  induction sh with
  | nil =>
    intro _
    norm_num [prodInt]
  | cons a as ih =>
    intro h
    rw [prodInt_cons]
    exact mul_pos (h a (List.mem_cons_self a as))
      (ih fun s hs => h s (List.mem_cons_of_mem a hs))

lemma flattenIdx_bounds : ∀ {sh js : List Int}, validIdxs sh js = true →
    0 ≤ flattenIdx sh js ∧ flattenIdx sh js < prodInt sh := by
  intro sh
  induction sh with
  | nil =>
    intro js hv
    cases js with
    | nil => exact ⟨le_refl 0, by norm_num [flattenIdx, prodInt]⟩
    | cons i js' => simp [validIdxs] at hv
  | cons a as ih =>
    intro js hv
    cases js with
    | nil => simp [validIdxs] at hv
    | cons i js' =>
      simp only [validIdxs, Bool.and_eq_true, decide_eq_true_eq] at hv
      obtain ⟨⟨h0, h1⟩, hrest⟩ := hv
      obtain ⟨ihl, ihr⟩ := ih hrest
      have hp : 0 < prodInt as := prodInt_pos (validIdxs_pos hrest)
      constructor
      · show 0 ≤ i * prodInt as + flattenIdx as js'
        have hmul : 0 ≤ i * prodInt as := mul_nonneg h0 hp.le
        omega
      · show i * prodInt as + flattenIdx as js' < prodInt (a :: as)
        rw [prodInt_cons]
        have hstep : (i + 1) * prodInt as ≤ a * prodInt as :=
          mul_le_mul_of_nonneg_right (by omega) hp.le
        nlinarith [hstep, ihr]

lemma prodExt_cons (d s : Int) (l : List (Int × Int)) :
    prodExt ((d, s) :: l) = d * prodExt l := rfl

lemma prodExt_pos : ∀ {runs : List (Int × Int)}, (∀ p ∈ runs, 0 < p.1) → 0 < prodExt runs := by
  intro runs
  induction runs with
  | nil =>
    intro _
    norm_num [prodExt, prodInt]
  | cons p l ih =>
    intro h
    obtain ⟨d, s⟩ := p
    rw [prodExt_cons]
    exact mul_pos (h (d, s) (List.mem_cons_self _ _))
      (ih fun q hq => h q (List.mem_cons_of_mem _ hq))

lemma tssGo_pos : ∀ (dims : List (Int × Int)) (cur : Int × Int), 0 < cur.1 →
    (∀ p ∈ dims, 0 < p.1) → ∀ p ∈ tssGo cur dims, 0 < p.1 := by
  intro dims
  induction dims with
  | nil =>
    intro cur hc _ p hp
    simp only [tssGo, List.mem_singleton] at hp
    subst hp
    exact hc
  | cons q rest ih =>
    intro cur hc hd p hp
    obtain ⟨sh, st⟩ := q
    have hsh : 0 < sh := hd (sh, st) (List.mem_cons_self _ _)
    have hrest : ∀ r ∈ rest, 0 < r.1 := fun r hr => hd r (List.mem_cons_of_mem _ hr)
    simp only [tssGo] at hp
    split at hp
    · exact ih (cur.1 * sh, st) (mul_pos hc hsh) hrest p hp
    · split at hp
      · exact ih cur hc hrest p hp
      · rcases List.mem_cons.mp hp with h | h
        · subst h
          exact hc
        · exact ih (sh, st) hsh hrest p h

lemma tssGo_prodExt : ∀ (dims : List (Int × Int)) (cur : Int × Int),
    prodExt (tssGo cur dims) = cur.1 * prodInt (dims.map Prod.fst) := by
  intro dims
  induction dims with
  | nil =>
    intro cur
    show prodExt [cur] = cur.1 * prodInt []
    obtain ⟨c1, c2⟩ := cur
    simp [prodExt_cons, prodExt, prodInt]
  | cons q rest ih =>
    intro cur
    obtain ⟨sh, st⟩ := q
    simp only [tssGo]
    split
    · rw [ih (cur.1 * sh, st)]
      simp only [List.map_cons, prodInt_cons]
      ring
    · split
      · rename_i hsh1
        rw [ih cur]
        simp only [List.map_cons, prodInt_cons, hsh1, one_mul]
      · rw [prodExt_cons, ih (sh, st)]
        simp only [List.map_cons, prodInt_cons]

lemma runsVal_shift : ∀ (runs : List (Int × Int)), (∀ p ∈ runs, 0 < p.1) →
    ∀ q r : Int, runsVal runs (q * prodExt runs + r) = runsVal runs r := by
  intro runs
  induction runs with
  | nil =>
    intro _ q r
    rfl
  | cons p rest ih =>
    intro h q r
    obtain ⟨d, s⟩ := p
    have hd : 0 < d := h (d, s) (List.mem_cons_self _ _)
    have hrest : ∀ x ∈ rest, 0 < x.1 := fun x hx => h x (List.mem_cons_of_mem _ hx)
    have hP : 0 < prodExt rest := prodExt_pos hrest
    simp only [runsVal, prodExt_cons]
    have harg : q * (d * prodExt rest) + r = q * d * prodExt rest + r := by
      ring
    rw [harg]
    have hdiv : (q * d * prodExt rest + r).fdiv (prodExt rest) =
        r.fdiv (prodExt rest) + q * d := by
      rw [Int.fdiv_eq_ediv _ hP.le, Int.fdiv_eq_ediv _ hP.le, add_comm (q * d * prodExt rest) r]
      exact Int.add_mul_ediv_right r (q * d) hP.ne'
    rw [hdiv]
    have hmod : (r.fdiv (prodExt rest) + q * d).fmod d = (r.fdiv (prodExt rest)).fmod d := by
      rw [Int.fmod_eq_emod _ hd.le, Int.fmod_eq_emod _ hd.le]
      exact Int.add_mul_emod_self
    rw [hmod]
    congr 1
    exact ih hrest (q * d) r

lemma dotProd_cons (x y : Int) (xs ys : List Int) :
    dotProd (x :: xs) (y :: ys) = x * y + dotProd xs ys := by
  simp [dotProd]

/-- Core correctness of the run-merging loop: if the current run `cur`
semantically stands for `local index * cur.2` and the flat index encodes
`(c, js)` in mixed radix, then the merged run list addresses exactly as the
fully expanded per-dimension formula does. -/
lemma tssGo_addr : ∀ (dims : List (Int × Int)) (js : List Int) (cur : Int × Int) (c : Int),
    0 < cur.1 → 0 ≤ c → c < cur.1 →
    validIdxs (dims.map Prod.fst) js = true →
    runsVal (tssGo cur dims)
        (c * prodInt (dims.map Prod.fst) + flattenIdx (dims.map Prod.fst) js)
      = c * cur.2 + dotProd js (dims.map Prod.snd) := by
  intro dims
  induction dims with
  | nil =>
    intro js cur c hc hc0 hcc hv
    cases js with
    | cons i js' => simp [validIdxs] at hv
    | nil =>
      have hx : c * prodInt ([] : List Int) + flattenIdx [] [] = c := by
        norm_num [prodInt, flattenIdx]
      rw [List.map_nil, List.map_nil, hx]
      show (c.fdiv (prodExt [])).fmod cur.1 * cur.2 + 0 = c * cur.2 + dotProd [] []
      have h1 : prodExt ([] : List (Int × Int)) = 1 := rfl
      rw [h1, Int.fdiv_one, Int.fmod_eq_of_lt hc0 hcc]
      simp [dotProd]
  | cons q rest ih =>
    intro js cur c hc hc0 hcc hv
    obtain ⟨sh, st⟩ := q
    cases js with
    | nil => simp [List.map_cons, validIdxs] at hv
    | cons i js' =>
      simp only [List.map_cons, validIdxs, Bool.and_eq_true, decide_eq_true_eq] at hv
      obtain ⟨⟨hi0, hisz⟩, hvrest⟩ := hv
      have hsh : 0 < sh := lt_of_le_of_lt hi0 hisz
      have hPpos : 0 < prodInt (rest.map Prod.fst) := prodInt_pos (validIdxs_pos hvrest)
      obtain ⟨hF0, hFP⟩ := flattenIdx_bounds hvrest
      have hflat : c * prodInt (((sh, st) :: rest).map Prod.fst) +
          flattenIdx (((sh, st) :: rest).map Prod.fst) (i :: js')
          = c * (sh * prodInt (rest.map Prod.fst)) +
            (i * prodInt (rest.map Prod.fst) + flattenIdx (rest.map Prod.fst) js') := by
        simp only [List.map_cons, prodInt_cons, flattenIdx]
      rw [hflat]
      simp only [List.map_cons, dotProd_cons, tssGo]
      split
      · rename_i hcond
        have harg : c * (sh * prodInt (rest.map Prod.fst)) +
            (i * prodInt (rest.map Prod.fst) + flattenIdx (rest.map Prod.fst) js')
            = (c * sh + i) * prodInt (rest.map Prod.fst) +
              flattenIdx (rest.map Prod.fst) js' := by
          ring
        rw [harg]
        have hbound : c * sh + i < cur.1 * sh := by
          have h1 : (c + 1) * sh ≤ cur.1 * sh :=
            mul_le_mul_of_nonneg_right (by omega) hsh.le
          nlinarith
        have key := ih js' (cur.1 * sh, st) (c * sh + i)
          (mul_pos hc hsh) (by positivity) hbound hvrest
        rw [key]
        rcases hcond with h | h
        · rw [h]
          ring
        · have hc0' : c = 0 := by omega
          rw [hc0']
          ring
      · split
        · rename_i hsh1
          have hi : i = 0 := by omega
          have harg : c * (sh * prodInt (rest.map Prod.fst)) +
              (i * prodInt (rest.map Prod.fst) + flattenIdx (rest.map Prod.fst) js')
              = c * prodInt (rest.map Prod.fst) + flattenIdx (rest.map Prod.fst) js' := by
            rw [hsh1, hi]
            ring
          rw [harg, ih js' cur c hc hc0 hcc hvrest, hi]
          ring
        · have hrestpos : ∀ p ∈ rest, 0 < p.1 := by
            intro p hp
            exact validIdxs_pos hvrest p.1 (List.mem_map_of_mem Prod.fst hp)
          have hLpos : ∀ p ∈ tssGo (sh, st) rest, 0 < p.1 :=
            tssGo_pos rest (sh, st) hsh hrestpos
          have hprodL : prodExt (tssGo (sh, st) rest) =
              sh * prodInt (rest.map Prod.fst) := tssGo_prodExt rest (sh, st)
          have hshP : 0 < sh * prodInt (rest.map Prod.fst) := mul_pos hsh hPpos
          have hr0 : 0 ≤ i * prodInt (rest.map Prod.fst) +
              flattenIdx (rest.map Prod.fst) js' := by
            have hmul : 0 ≤ i * prodInt (rest.map Prod.fst) := mul_nonneg hi0 hPpos.le
            omega
          have hrP : i * prodInt (rest.map Prod.fst) + flattenIdx (rest.map Prod.fst) js'
              < sh * prodInt (rest.map Prod.fst) := by
            have h1 : (i + 1) * prodInt (rest.map Prod.fst) ≤
                sh * prodInt (rest.map Prod.fst) :=
              mul_le_mul_of_nonneg_right (by omega) hPpos.le
            nlinarith
          simp only [runsVal, hprodL]
          have hdiv : (c * (sh * prodInt (rest.map Prod.fst)) +
              (i * prodInt (rest.map Prod.fst) + flattenIdx (rest.map Prod.fst) js')).fdiv
                (sh * prodInt (rest.map Prod.fst)) = c := by
            rw [Int.fdiv_eq_ediv _ hshP.le, add_comm]
            rw [mul_comm c (sh * prodInt (rest.map Prod.fst))]
            rw [Int.add_mul_ediv_left _ _ hshP.ne']
            rw [Int.ediv_eq_zero_of_lt hr0 hrP]
            ring
          rw [hdiv, Int.fmod_eq_of_lt hc0 hcc]
          have hshift : c * (sh * prodInt (rest.map Prod.fst)) +
              (i * prodInt (rest.map Prod.fst) + flattenIdx (rest.map Prod.fst) js')
              = c * prodExt (tssGo (sh, st) rest) +
                (i * prodInt (rest.map Prod.fst) + flattenIdx (rest.map Prod.fst) js') := by
            rw [hprodL]
          rw [hshift, runsVal_shift _ hLpos c _, ih js' (sh, st) i hsh hi0 hisz hvrest]

/-- The run-merged flat-index formula agrees with the fully expanded
per-dimension formula on the whole index space. -/
lemma exprNode_addr (shape strides js : List Int)
    (hs : strides.length = shape.length)
    (hv : validIdxs shape js = true) :
    runsVal (to_shape_strides shape strides) (flattenIdx shape js) = dotProd js strides := by
  cases shape with
  | nil =>
    cases js with
    | cons i js' => simp [validIdxs] at hv
    | nil =>
      have hstr : strides = [] := List.length_eq_zero.mp (by simpa using hs)
      subst hstr
      rfl
  | cons s ss =>
    cases strides with
    | nil => simp at hs
    | cons t ts =>
      cases js with
      | nil => simp [validIdxs] at hv
      | cons i js' =>
        simp only [validIdxs, Bool.and_eq_true, decide_eq_true_eq] at hv
        obtain ⟨⟨hi0, his⟩, hvrest⟩ := hv
        have hlen : ss.length = ts.length := by simpa using hs.symm
        have hfst : (ss.zip ts).map Prod.fst = ss := List.map_fst_zip ss ts (le_of_eq hlen)
        have hsnd : (ss.zip ts).map Prod.snd = ts :=
          List.map_snd_zip ss ts (le_of_eq hlen.symm)
        show runsVal (tssGo (s, t) (ss.zip ts)) (flattenIdx (s :: ss) (i :: js')) = _
        have key := tssGo_addr (ss.zip ts) js' (s, t) i (lt_of_le_of_lt hi0 his)
          hi0 his (by rw [hfst]; exact hvrest)
        rw [hfst, hsnd] at key
        have hfl : flattenIdx (s :: ss) (i :: js') =
            i * prodInt ss + flattenIdx ss js' := rfl
        rw [hfl, key, dotProd_cons]

/-- expr_idxs drops exactly the terms that vanish at valid indices: an
extent-1 dimension forces index 0, and a stride-0 dimension contributes
nothing. -/
lemma filtered_dot : ∀ (shape strides js : List Int),
    validIdxs shape js = true → strides.length = shape.length →
    (((js.zip (shape.zip strides)).filter fun p =>
        decide (p.2.1 ≠ 1) && decide (p.2.2 ≠ 0)).map fun p => p.1 * p.2.2).sum
      = dotProd js strides := by
  intro shape
  induction shape with
  | nil =>
    intro strides js hv _
    cases js with
    | nil => rfl
    | cons i js' => simp [validIdxs] at hv
  | cons s ss ih =>
    intro strides js hv hs
    cases strides with
    | nil => simp at hs
    | cons t ts =>
      cases js with
      | nil => simp [validIdxs] at hv
      | cons i js' =>
        simp only [validIdxs, Bool.and_eq_true, decide_eq_true_eq] at hv
        obtain ⟨⟨hi0, his⟩, hvrest⟩ := hv
        have hs' : ts.length = ss.length := by simpa using hs
        have hrec := ih ts js' hvrest hs'
        simp only [decide_not] at hrec
        by_cases h1 : s = 1
        · have hi : i = 0 := by omega
          simp [List.zip_cons_cons, List.filter_cons, h1, hi, dotProd_cons, hrec]
        · by_cases h2 : t = 0
          · simp [List.zip_cons_cons, List.filter_cons, h1, h2, dotProd_cons, hrec]
          · simp [List.zip_cons_cons, List.filter_cons, h1, h2, dotProd_cons, hrec]

/-- C1: for every concrete View and valid per-dimension index tuple,
expr_idxs evaluates to `offset + sum(index[i] * strides[i])`, and
expr_node at the row-major flattened index evaluates to the identical
value — the run merging of to_shape_strides never changes the address. -/
theorem expr_consistency (v : View) (js : List Int)
    (hs : v.strides.length = v.shape.length)
    (hv : validIdxs v.shape js = true) :
    exprIdxsVal v js = v.offset + dotProd js v.strides ∧
    exprNodeVal v (flattenIdx v.shape js) = exprIdxsVal v js := by
  have h1 : exprIdxsVal v js = v.offset + dotProd js v.strides := by
    unfold exprIdxsVal
    rw [filtered_dot v.shape v.strides js hv hs]
  refine ⟨h1, ?_⟩
  unfold exprNodeVal
  rw [exprNode_addr v.shape v.strides js hs hv, h1]
  by_cases h : v.offset = 0
  · rw [if_neg (by simpa using h), h]
  · rw [if_pos h]

/-- Witness for C1 at a masked-free offset view with an extent-1 dimension
and a mergeable run (`(2, 1, 3)` with strides `(3, 0, 1)`, offset 5, index
tuple `(1, 0, 2)`). -/
theorem expr_consistency_witness :
    exprIdxsVal (View.create [2, 1, 3] (some [3, 99, 1]) 5 none) [1, 0, 2] =
        (View.create [2, 1, 3] (some [3, 99, 1]) 5 none).offset +
          dotProd [1, 0, 2] (View.create [2, 1, 3] (some [3, 99, 1]) 5 none).strides ∧
    exprNodeVal (View.create [2, 1, 3] (some [3, 99, 1]) 5 none)
        (flattenIdx (View.create [2, 1, 3] (some [3, 99, 1]) 5 none).shape [1, 0, 2]) =
      exprIdxsVal (View.create [2, 1, 3] (some [3, 99, 1]) 5 none) [1, 0, 2] :=
  expr_consistency (View.create [2, 1, 3] (some [3, 99, 1]) 5 none) [1, 0, 2]
    (by decide) (by decide)

lemma createStrides_some (shape s : List Int) (h : s = [] → shape = []) :
    createStrides shape (some s) = filter_strides shape s := by
  by_cases hs : s = []
  · subst hs
    rw [h rfl]
    rfl
  · simp [createStrides, hs]

/-- C6 counterexample: shrinking the contiguous `(4,)` view to the single
element `[1, 2)` does not preserve the strides — the factory normalizes
the now extent-1 dimension to stride 0. -/
theorem shrink_strides_not_preserved :
    ((View.create [4] none 0 none).shrink [((1 : Int), (2 : Int))]).map View.strides ≠
      some (View.create [4] none 0 none).strides := by
  decide

/-- C6 amended: under the shrink preconditions, the result's offset is the
old offset plus `begin * stride` summed over the dimensions, its shape is
`end - begin` per dimension, and its strides are the old strides up to the
factory's normalization (stride 0 wherever the new extent is 1). -/
theorem shrink_fields (v : View) (arg : List (Int × Int))
    (hlen : arg.length = v.shape.length)
    (hs : v.strides.length = v.shape.length)
    (hb : ((v.shape.zip arg).all fun p => decide (0 ≤ p.2.1) && decide (p.2.2 ≤ p.1)) = true) :
    ∃ w, v.shrink arg = some w ∧
      w.offset = v.offset + ((v.strides.zip arg).map fun p => p.1 * p.2.1).sum ∧
      w.shape = arg.map (fun p => p.2 - p.1) ∧
      w.strides = filter_strides (arg.map fun p => p.2 - p.1) v.strides := by
  have hcond : (((v.shape.zip arg).all fun p => decide (0 ≤ p.2.1) && decide (p.2.2 ≤ p.1)) &&
      arg.length == v.shape.length) = true := by
    rw [hb, Bool.true_and, beq_iff_eq]
    exact hlen
  refine ⟨v.resizeRaw arg none, ?_, rfl, rfl, ?_⟩
  · unfold View.shrink
    rw [if_pos hcond]
  · show createStrides (arg.map fun p => p.2 - p.1) (some v.strides) = _
    apply createStrides_some
    intro hnil
    have hsh : v.shape = [] := List.length_eq_zero.mp (by rw [← hs, hnil]; rfl)
    have harg : arg = [] := List.length_eq_zero.mp (by rw [hlen, hsh]; rfl)
    rw [harg]
    rfl

/-- Witness for C6 at the shrink of the contiguous `(4,)` view to
`[1, 2)`. -/
theorem shrink_fields_witness :
    ∃ w, (View.create [4] none 0 none).shrink [((1 : Int), (2 : Int))] = some w ∧
      w.offset = (View.create [4] none 0 none).offset +
        (((View.create [4] none 0 none).strides.zip [((1 : Int), (2 : Int))]).map
          fun p => p.1 * p.2.1).sum ∧
      w.shape = [((1 : Int), (2 : Int))].map (fun p => p.2 - p.1) ∧
      w.strides = filter_strides ([((1 : Int), (2 : Int))].map fun p => p.2 - p.1)
        (View.create [4] none 0 none).strides :=
  shrink_fields (View.create [4] none 0 none) [(1, 2)] (by decide) (by decide) (by decide)

lemma map_sub_of_pad : ∀ l : List (Int × (Int × Int)),
    ((l.map fun p => ((-p.2.1 : Int), p.1 + p.2.2)).map fun p => p.2 - p.1)
      = l.map fun p => p.1 + p.2.1 + p.2.2 := by
  intro l
  induction l with
  | nil => rfl
  | cons x xs ih =>
    simp only [List.map_cons, ih]
    congr 1
    ring

/-- Merging the translated old mask with the fresh pad mask, dimension by
dimension, is the componentwise intersection of the pad range with the old
mask shifted into the new coordinates (nonnegative pad amounts make the
clamping `max _ 0` and `min _ (extent + before + after)` redundant). -/
lemma pad_mask_merge : ∀ (m : List (Int × Int)) (shape : List Int) (arg : List (Int × Int)),
    m.length = shape.length → arg.length = shape.length →
    (arg.all fun p => decide (0 ≤ p.1) && decide (0 ≤ p.2)) = true →
    (((m.zip ((shape.zip arg).map fun p => (-p.2.1, p.1 + p.2.2))).map fun p =>
        (max (p.1.1 - p.2.1) 0, min (p.1.2 - p.2.1) (p.2.2 - p.2.1))).zip
          ((shape.zip arg).map fun p => (p.2.1, p.1 + p.2.1))).map
        (fun p => (max p.1.1 p.2.1, min p.1.2 p.2.2))
      = (m.zip (shape.zip arg)).map fun p =>
          (max (p.1.1 + p.2.2.1) p.2.2.1, min (p.1.2 + p.2.2.1) (p.2.1 + p.2.2.1)) := by
  intro m
  induction m with
  | nil =>
    intro shape arg _ _ _
    rfl
  | cons mm m' ih =>
    intro shape arg hm ha hall
    cases shape with
    | nil => simp at hm
    | cons s shape' =>
      cases arg with
      | nil => simp at ha
      | cons a arg' =>
        simp only [List.length_cons] at hm ha
        simp only [List.all_cons, Bool.and_eq_true, decide_eq_true_eq] at hall
        obtain ⟨⟨ha1, ha2⟩, hrest⟩ := hall
        simp only [List.zip_cons_cons, List.map_cons]
        rw [ih shape' arg' (by omega) (by omega) hrest]
        congr 1
        obtain ⟨mx, my⟩ := mm
        obtain ⟨ab, ae⟩ := a
        simp only [Prod.mk.injEq]
        constructor
        · omega
        · omega

/-- C7: padding by nonnegative, not-all-zero amounts enlarges each extent
by `before + after` and produces a mask that is exactly
`[before, before + extent)` per dimension when no mask was present, and
the componentwise intersection of that range with the old mask translated
into the new coordinates otherwise. -/
theorem pad_fields (v : View) (arg : List (Int × Int))
    (hlen : arg.length = v.shape.length)
    (hm : ∀ m, v.mask = some m → m.length = v.shape.length)
    (hnn : (arg.all fun p => decide (0 ≤ p.1) && decide (0 ≤ p.2)) = true)
    (hnz : (arg.any fun p => !(p.1 == 0) || !(p.2 == 0)) = true) :
    ∃ w, v.pad arg = some w ∧
      w.shape = (v.shape.zip arg).map (fun p => p.1 + p.2.1 + p.2.2) ∧
      w.mask = some (match v.mask with
        | none => (v.shape.zip arg).map fun p => (p.2.1, p.1 + p.2.1)
        | some m => (m.zip (v.shape.zip arg)).map fun p =>
            (max (p.1.1 + p.2.2.1) p.2.2.1, min (p.1.2 + p.2.2.1) (p.2.1 + p.2.2.1))) := by
  have hcond : ((arg.all fun p => decide (0 ≤ p.1) && decide (0 ≤ p.2)) &&
      arg.length == v.shape.length) = true := by
    rw [hnn, Bool.true_and, beq_iff_eq]
    exact hlen
  unfold View.pad
  rw [if_pos hcond, if_pos hnz]
  refine ⟨_, rfl, ?_, ?_⟩
  · exact map_sub_of_pad (v.shape.zip arg)
  · cases hv : v.mask with
    | none =>
      simp only [View.resizeRaw, hv, create_mask]
    | some m =>
      have hane : arg ≠ [] := by
        intro h
        rw [h] at hnz
        simp at hnz
      have hmne : m.isEmpty = false := by
        cases hmm : m with
        | nil =>
          exfalso
          have h1 : v.shape = [] := by
            have := hm m hv
            rw [hmm] at this
            exact List.length_eq_zero.mp this.symm
          have h2 : arg = [] := by
            rw [h1] at hlen
            exact List.length_eq_zero.mp (by simpa using hlen)
          exact hane h2
        | cons y ys => rfl
      simp only [View.resizeRaw, hv, hmne, create_mask, Bool.false_eq_true, if_false,
        Option.some.injEq]
      exact pad_mask_merge m v.shape arg (hm m hv) hlen hnn

/-- Witness for C7 at the spec's concrete scenario: the `(4,)` view padded
by `(1, 1)` (shape `(6,)`, mask `((1, 5),)`). -/
theorem pad_fields_witness :
    ∃ w, (View.create [4] none 0 none).pad [((1 : Int), (1 : Int))] = some w ∧
      w.shape = (((View.create [4] none 0 none).shape.zip [((1 : Int), (1 : Int))]).map
        fun p => p.1 + p.2.1 + p.2.2) ∧
      w.mask = some (match (View.create [4] none 0 none).mask with
        | none => ((View.create [4] none 0 none).shape.zip [((1 : Int), (1 : Int))]).map
            fun p => (p.2.1, p.1 + p.2.1)
        | some m => (m.zip ((View.create [4] none 0 none).shape.zip
            [((1 : Int), (1 : Int))])).map fun p =>
            (max (p.1.1 + p.2.2.1) p.2.2.1, min (p.1.2 + p.2.2.1) (p.2.1 + p.2.2.1))) :=
  pad_fields (View.create [4] none 0 none) [(1, 1)] (by decide)
    (fun _ h => nomatch h) (by decide) (by decide)

/-- C8 counterexample: striding the contiguous `(2,)` view by 2 leaves a
single-element dimension, whose stride the factory normalizes to 0 rather
than `old_stride * multiplier = 2`. -/
theorem stride_strides_not_multiplied :
    ((View.create [2] none 0 none).stride [(2 : Int)]).map View.strides ≠
      some (((View.create [2] none 0 none).strides.zip [(2 : Int)]).map fun p => p.1 * p.2) := by
  decide

/-- C8 amended: under the stride preconditions, each extent becomes the
ceiling of the old extent over the absolute multiplier, the offset gains
`(extent - 1) * stride` for every negative multiplier, and the strides are
`old_stride * multiplier` up to the factory's normalization (stride 0
wherever the new extent is 1). -/
theorem stride_fields (v : View) (mul : List Int)
    (hlen : mul.length = v.shape.length)
    (hs : v.strides.length = v.shape.length)
    (hnz : (mul.all fun m => !(m == 0)) = true) :
    ∃ w, v.stride mul = some w ∧
      w.shape = (v.shape.zip mul).map (fun p => (p.1 + (abs p.2 - 1)).fdiv (abs p.2)) ∧
      w.strides = filter_strides
        ((v.shape.zip mul).map fun p => (p.1 + (abs p.2 - 1)).fdiv (abs p.2))
        ((v.strides.zip mul).map fun p => p.1 * p.2) ∧
      w.offset = v.offset + ((((v.shape.zip v.strides).zip mul).filter fun p =>
        decide (p.2 < 0)).map fun p => (p.1.1 - 1) * p.1.2).sum := by
  unfold View.stride
  rw [if_pos hnz]
  refine ⟨_, rfl, rfl, ?_, rfl⟩
  show createStrides _ (some ((v.strides.zip mul).map fun p => p.1 * p.2)) = _
  apply createStrides_some
  intro hnil
  cases hm : mul with
  | nil =>
    have hsh : v.shape = [] := List.length_eq_zero.mp (by rw [← hlen, hm]; rfl)
    rw [hsh]
    rfl
  | cons m ms =>
    cases hshape : v.shape with
    | nil =>
      rw [hshape, hm] at hlen
      simp at hlen
    | cons a as =>
      cases hstr : v.strides with
      | nil =>
        rw [hstr, hshape] at hs
        simp at hs
      | cons b bs =>
        rw [hstr, hm] at hnil
        simp at hnil

/-- Witness for C8 at the spec's concrete scenario: `(2, 2)` strided by
`(-1, 1)`. -/
theorem stride_fields_witness :
    ∃ w, (View.create [2, 2] none 0 none).stride [(-1 : Int), 1] = some w ∧
      w.shape = (((View.create [2, 2] none 0 none).shape.zip [(-1 : Int), 1]).map
        fun p => (p.1 + (abs p.2 - 1)).fdiv (abs p.2)) ∧
      w.strides = filter_strides
        (((View.create [2, 2] none 0 none).shape.zip [(-1 : Int), 1]).map
          fun p => (p.1 + (abs p.2 - 1)).fdiv (abs p.2))
        (((View.create [2, 2] none 0 none).strides.zip [(-1 : Int), 1]).map
          fun p => p.1 * p.2) ∧
      w.offset = (View.create [2, 2] none 0 none).offset +
        (((((View.create [2, 2] none 0 none).shape.zip
            (View.create [2, 2] none 0 none).strides).zip [(-1 : Int), 1]).filter
          fun p => decide (p.2 < 0)).map fun p => (p.1.1 - 1) * p.1.2).sum :=
  stride_fields (View.create [2, 2] none 0 none) [-1, 1] (by decide) (by decide) (by decide)

/-- C9: inside the run-merging loop, a dimension of extent 1 whose
preceding run can merge neither by stride compatibility nor by having
accumulated extent 1 is skipped, contributing no run; stated for the loop
at any position and instantiated on `to_shape_strides` itself. -/
theorem unit_dim_dropped :
    (∀ (cur : Int × Int) (st : Int) (rest : List (Int × Int)),
      cur.2 ≠ st → cur.1 ≠ 1 → tssGo cur ((1, st) :: rest) = tssGo cur rest) ∧
    (∀ (a b st : Int) (rs rsts : List Int), b ≠ st → a ≠ 1 →
      to_shape_strides (a :: 1 :: rs) (b :: st :: rsts) =
        to_shape_strides (a :: rs) (b :: rsts)) := by
  have key : ∀ (cur : Int × Int) (st : Int) (rest : List (Int × Int)),
      cur.2 ≠ st → cur.1 ≠ 1 → tssGo cur ((1, st) :: rest) = tssGo cur rest := by
    intro cur st rest h1 h2
    have hcond : ¬ (cur.2 = 1 * st ∨ cur.1 = 1) := by
      rw [one_mul]
      exact not_or.mpr ⟨h1, h2⟩
    simp only [tssGo]
    rw [if_neg hcond, if_pos trivial]
  refine ⟨key, ?_⟩
  intro a b st rs rsts h1 h2
  show tssGo (a, b) ((1, st) :: rs.zip rsts) = tssGo (a, b) (rs.zip rsts)
  exact key (a, b) st (rs.zip rsts) h1 h2

/-- Witness for C9: an extent-1 dimension after the non-mergeable run
`(2, 5)` is dropped. -/
theorem unit_dim_dropped_witness :
    tssGo (2, 5) [((1 : Int), (3 : Int))] = tssGo (2, 5) [] :=
  unit_dim_dropped.1 (2, 5) 3 [] (by decide) (by decide)

/-- C10: reshape to the identical shape returns the view itself as its
very first step, before the positivity and size checks run — witnessed by
a view whose shape would fail the positivity check yet reshapes to itself
successfully. -/
theorem reshape_identity_first (v : View) :
    v.reshape v.shape = Except.ok (some v) ∧
    (([(-2 : Int)].all fun x => decide (0 < x)) = false ∧
      (View.mk [-2] [1] 0 none false).reshape [-2] =
        Except.ok (some (View.mk [-2] [1] 0 none false))) := by
  refine ⟨?_, by decide, rfl⟩
  unfold View.reshape
  rw [if_pos rfl]

end TG
